import Mathlib

/-!
Shallow embedding of the Blokus rules engine (src/blokus.py) together with
the debug grid serialization (src/grid.py), and proofs of the frozen claims
about them.

The repository files piece.py, shape_definitions.py and base.py are not in
src/; the parts of them this development needs (the piece geometry, the
shape catalog, and the Grid cell type) are modelled from the spec, and each
such definition carries a doc comment saying so.
-/

/-- Modelled from the spec: shape_definitions.py is not in src/.  The 21
fixed polyomino kinds of the shape catalog (spec section 4.1), with the
standard Blokus inventory names.  The 1-square kind is ONE. -/
inductive ShapeKind where
  | ONE | TWO | THREE | C | FOUR | SEVEN | S | LETTER_O | A
  | F | FIVE | L | N | P | T | U | V | W | X | Y | Z
deriving DecidableEq

/-- Modelled from the spec: the number of cells of each canonical shape
definition (spec section 4.1: minimum 1, maximum 5 cells; the standard
inventory has one 1-cell, one 2-cell, two 3-cell, five 4-cell and twelve
5-cell shapes). -/
def squareCount : ShapeKind → Nat
  | .ONE => 1
  | .TWO => 2
  | .THREE => 3
  | .C => 3
  | .FOUR => 4
  | .SEVEN => 4
  | .S => 4
  | .LETTER_O => 4
  | .A => 4
  | _ => 5

/-- Modelled from the spec: the key list of the shape catalog dictionary
(the iteration order of shapes.keys in remaining_shapes). -/
def allKinds : List ShapeKind :=
  [.ONE, .TWO, .THREE, .C, .FOUR, .SEVEN, .S, .LETTER_O, .A,
   .F, .FIVE, .L, .N, .P, .T, .U, .V, .W, .X, .Y, .Z]

/-- A board coordinate, as in piece.py: an ordered pair of integers. -/
abbrev Point := Int × Int

/-- A grid cell: empty, or an owning player id paired with the shape kind
placed there (base.py Cell, modelled from the spec data model). -/
abbrev Cell := Option (Nat × ShapeKind)

/-- Modelled from the spec: piece.py is not in src/.  A placement
candidate: a shape kind, an optional anchor, and the offset list of the
current orientation.  squares, cardinal_neighbors and intercardinal
neighbors are computed from these fields per spec section 4.2. -/
structure Piece where
  kind : ShapeKind
  anchor : Option Point
  offsets : List Point

/-- Modelled from the spec: squares(piece) = anchor + each offset of the
current orientation (spec section 4.2).  The anchor is passed explicitly;
callers in blokus.py only reach this after checking the anchor is set. -/
def Piece.squaresAt (p : Piece) (a : Point) : List Point :=
  p.offsets.map (fun o => (a.1 + o.1, a.2 + o.2))

/-- Modelled from the spec: for every occupied square the 4 orthogonally
adjacent points, excluding the squares of the piece itself. -/
def Piece.cardinalAt (p : Piece) (a : Point) : List Point :=
  let sq := p.squaresAt a
  (sq.flatMap (fun s => [(s.1 - 1, s.2), (s.1 + 1, s.2), (s.1, s.2 - 1), (s.1, s.2 + 1)])).filter
    (fun q => q ∉ sq)

/-- Modelled from the spec: for every occupied square the 4 diagonally
adjacent points, excluding the squares of the piece itself and excluding
any point already counted as a cardinal neighbor. -/
def Piece.intercardinalAt (p : Piece) (a : Point) : List Point :=
  let sq := p.squaresAt a
  let card := p.cardinalAt a
  (sq.flatMap (fun s => [(s.1 - 1, s.2 - 1), (s.1 - 1, s.2 + 1), (s.1 + 1, s.2 - 1), (s.1 + 1, s.2 + 1)])).filter
    (fun q => q ∉ sq ∧ q ∉ card)

/-- The game state aggregate of blokus.py (class Blokus).  The grid is a
total function on integer coordinates; every read or write the engine
performs is at an in-bounds coordinate (wall collisions are checked before
occupancy reads and writes, and neighbor lookups are clamped first). -/
structure Blokus where
  num_players : Nat
  size : Nat
  start_positions : List Point
  curr_player : Nat
  shapes_played : Nat → List ShapeKind
  grid : Int → Int → Cell
  retired : List Nat

/-- blokus.py remaining_shapes: the catalog kinds not in the played list
of the given player. -/
def remaining_shapes (b : Blokus) (player : Nat) : List ShapeKind :=
  allKinds.filter (fun s => s ∉ b.shapes_played player)

def anchorMsg : String := "Piece anchor is not set."

def pieceMsg : String := "Player does not have the specified piece."

/-- blokus.py any_wall_collisions: true iff some square of the anchored
piece lies outside the board. -/
def any_wall_collisions (b : Blokus) (piece : Piece) : Except String Bool :=
  match piece.anchor with
  | none => .error anchorMsg
  | some a =>
    if piece.kind ∈ remaining_shapes b b.curr_player then
      .ok ((piece.squaresAt a).any
        (fun s => s.1 < 0 ∨ s.1 ≥ (b.size : Int) ∨ s.2 < 0 ∨ s.2 ≥ (b.size : Int)))
    else .error pieceMsg

/-- blokus.py any_collisions: wall collision, or some square already
occupied on the grid (occupancy is only consulted when there is no wall
collision, so the reads are in bounds). -/
def any_collisions (b : Blokus) (piece : Piece) : Except String Bool :=
  match piece.anchor with
  | none => .error anchorMsg
  | some a =>
    if piece.kind ∈ remaining_shapes b b.curr_player then
      match any_wall_collisions b piece with
      | .error e => .error e
      | .ok true => .ok true
      | .ok false => .ok ((piece.squaresAt a).any (fun s => (b.grid s.1 s.2).isSome))
    else .error pieceMsg

/-- blokus.py legal_to_place, clamp of one coordinate:
min(size - 1, max(0, v)). -/
def clampCoord (size : Nat) (v : Int) : Int :=
  min ((size : Int) - 1) (max 0 v)

/-- The occupancy test legal_to_place performs on each (clamped) neighbor
coordinate: the cell is non-empty and owned by the current player. -/
def ownAt (b : Blokus) (q : Point) : Bool :=
  match b.grid (clampCoord b.size q.1) (clampCoord b.size q.2) with
  | some pk => pk.1 == b.curr_player
  | none => false

/-- blokus.py legal_to_place. -/
def legal_to_place (b : Blokus) (piece : Piece) : Except String Bool :=
  match piece.anchor with
  | none => .error anchorMsg
  | some a =>
    if piece.kind ∈ remaining_shapes b b.curr_player then
      match any_collisions b piece with
      | .error e => .error e
      | .ok true => .ok false
      | .ok false =>
        if (b.shapes_played b.curr_player).length ≤ 0 then
          .ok ((piece.squaresAt a).any (fun sq => sq ∈ b.start_positions))
        else
          if (piece.cardinalAt a).any (fun q => ownAt b q) then
            .ok false
          else
            .ok ((piece.intercardinalAt a).any (fun q => ownAt b q))
    else .error pieceMsg

/-- blokus.py game_over scan body: iterates the player ids, repointing the
cursor to each in turn; returns False (restoring the saved cursor) at the
first player that is neither retired nor exhausted, True otherwise. -/
def gameOverScan (saved : Nat) : Blokus → List Nat → Bool × Blokus
  | b, [] => (true, b)
  | b, p :: ps =>
    let b1 : Blokus := {b with curr_player := p}
    if p ∈ b1.retired then gameOverScan saved b1 ps
    else if (remaining_shapes b1 p).length ≤ 0 then gameOverScan saved b1 ps
    else (false, {b1 with curr_player := saved})

/-- blokus.py game_over property: the scan over players 1..num_players,
started with the current cursor saved. -/
def game_over (b : Blokus) : Bool × Blokus :=
  gameOverScan b.curr_player b (List.range' 1 b.num_players)

/-- blokus.py progress_turn, the cyclic advancement step:
(curr_player mod num_players) + 1. -/
def advState (b : Blokus) : Blokus :=
  {b with curr_player := b.curr_player % b.num_players + 1}

/-- blokus.py progress_turn loop body, with explicit fuel.  The Python
while loop has no fuel; the development proves that fuel num_players is
never exhausted, which is the termination of the source loop. -/
def progressLoop : Nat → Blokus → Blokus
  | 0, b => b
  | fuel + 1, b =>
    if b.curr_player ∈ b.retired ∨ (remaining_shapes b b.curr_player).length ≤ 0 then
      match game_over b with
      | (true, b2) => b2
      | (false, b2) => progressLoop fuel (advState b2)
    else b

/-- blokus.py progress_turn. -/
def progress_turn (b : Blokus) : Blokus :=
  progressLoop b.num_players (advState b)

/-- blokus.py maybe_place, grid writes: one assignment per square of the
piece, in order. -/
def writeSquares (v : Nat × ShapeKind) : List Point → (Int → Int → Cell) → (Int → Int → Cell)
  | [], g => g
  | sq :: rest, g =>
    writeSquares v rest (fun x y => if x = sq.1 ∧ y = sq.2 then some v else g x y)

/-- blokus.py maybe_place. -/
def maybe_place (b : Blokus) (piece : Piece) : Except String (Bool × Blokus) :=
  let current_player := b.curr_player
  if current_player ∈ b.retired then .ok (true, progress_turn b)
  else
    match piece.anchor with
    | none => .error anchorMsg
    | some a =>
      if piece.kind ∈ remaining_shapes b current_player then
        match legal_to_place b piece with
        | .error e => .error e
        | .ok false => .ok (false, b)
        | .ok true =>
          let b1 : Blokus :=
            {b with grid := writeSquares (current_player, piece.kind) (piece.squaresAt a) b.grid}
          let b2 : Blokus :=
            {b1 with shapes_played := fun p =>
              if p = current_player then b1.shapes_played p ++ [piece.kind]
              else b1.shapes_played p}
          .ok (true, progress_turn b2)
      else .error pieceMsg

/-- blokus.py retire: add the current player to the retired set, then
advance the turn. -/
def retire (b : Blokus) : Blokus :=
  progress_turn {b with retired := b.retired.insert b.curr_player}

/-- blokus.py get_score.  With any shape remaining, the score starts at 0
and subtracts the square count of each remaining shape; otherwise it is 20
when the last played shape has exactly one square, else 15.  Python indexes
the played list at -1 there; that list is provably non-empty (all 21
catalog kinds are played), so the default of getLastD is never consulted. -/
def get_score (b : Blokus) (player : Nat) : Int :=
  let rem := remaining_shapes b player
  if rem.length > 0 then
    rem.foldl (fun score s => score - (squareCount s : Int)) 0
  else if squareCount ((b.shapes_played player).getLastD .ONE) = 1 then 20
  else 15

/-- Python max over a list of ints; the source only applies it to a
non-empty list (num_players is at least 1), where the head seed is exact. -/
def pyMax : List Int → Int
  | [] => 0
  | s :: rest => rest.foldl max s

/-- blokus.py winners property: evaluates the game_over property (which
can move the cursor), then collects the ids of maximal score. -/
def winners (b : Blokus) : Option (List Nat) × Blokus :=
  match game_over b with
  | (true, b2) =>
    let scores := (List.range' 1 b2.num_players).map (fun p => get_score b2 p)
    (some (((scores.enum.filter (fun ps => ps.2 == pyMax scores)).map (fun ps => ps.1 + 1))), b2)
  | (false, b2) => (none, b2)

/-! Spec-side predicates used to state the claims. -/

/-- A player who is neither retired nor out of remaining shapes. -/
def playableP (b : Blokus) (p : Nat) : Prop :=
  p ∉ b.retired ∧ 0 < (remaining_shapes b p).length

instance (b : Blokus) (p : Nat) : Decidable (playableP b p) :=
  inferInstanceAs (Decidable (_ ∧ _))

/-- Every player 1..num_players is retired or exhausted: the pure value of
the game_over test, independent of the cursor. -/
def allDone (b : Blokus) : Prop :=
  ∀ p ∈ List.range' 1 b.num_players, ¬ playableP b p

instance (b : Blokus) : Decidable (allDone b) :=
  inferInstanceAs (Decidable (∀ p ∈ _, _))

/-- Clamp of a whole point, componentwise, into the board. -/
def clampP (size : Nat) (q : Point) : Point :=
  (clampCoord size q.1, clampCoord size q.2)

/-- The cell at the componentwise-clamped coordinate of q is occupied by
the current player. -/
def OwnOcc (b : Blokus) (q : Point) : Prop :=
  ∃ k, b.grid (clampP b.size q).1 (clampP b.size q).2 = some (b.curr_player, k)

/-- No cardinal neighbor of the anchored piece, clamped componentwise into
the board, is occupied by the current player. -/
def EdgeFreeAt (b : Blokus) (piece : Piece) (a : Point) : Prop :=
  ∀ q ∈ piece.cardinalAt a, ¬ OwnOcc b q

/-- Some intercardinal neighbor of the anchored piece, clamped
componentwise into the board, is occupied by the current player. -/
def CornerTouchAt (b : Blokus) (piece : Piece) (a : Point) : Prop :=
  ∃ q ∈ piece.intercardinalAt a, OwnOcc b q

/-- Some square of the anchored piece is one of the start positions. -/
def TouchesStart (b : Blokus) (piece : Piece) (a : Point) : Prop :=
  ∃ sq ∈ piece.squaresAt a, sq ∈ b.start_positions

/-- The state b2 agrees with b on every field except possibly the cursor. -/
def OnlyCursorChanged (b b2 : Blokus) : Prop :=
  b2 = {b with curr_player := b2.curr_player}

/-- Iterated cyclic advancement of a 1-indexed player cursor. -/
def iterNext (n : Nat) : Nat → Nat → Nat
  | 0, c => c
  | k + 1, c => iterNext n k (c % n + 1)

/-- The progress_turn loop gives the same result with any fuel beyond
num_players: the source while loop terminates. -/
def ProgressFuelIrrel (b : Blokus) : Prop :=
  ∀ extra, progressLoop (b.num_players + extra) (advState b) = progress_turn b

/-- progress_turn lands on a playable player reached by cyclic 1-indexed
advancement from the previous cursor, skipping only unplayable players. -/
def ProgressReaches (b : Blokus) : Prop :=
  ∃ k, progress_turn b = {b with curr_player := iterNext b.num_players (k + 1) b.curr_player} ∧
    playableP b (iterNext b.num_players (k + 1) b.curr_player) ∧
    ∀ j, 1 ≤ j → j ≤ k → ¬ playableP b (iterNext b.num_players j b.curr_player)

/-- The scores of players 1..num_players. -/
def playerScores (b : Blokus) : List Int :=
  (List.range' 1 b.num_players).map (fun p => get_score b p)

/-- The maximum score, as Python max computes it. -/
def maxScore (b : Blokus) : Int := pyMax (playerScores b)

/-- The player ids achieving the maximum score, in id order. -/
def winList (b : Blokus) : List Nat :=
  (List.range' 1 b.num_players).filter (fun p => get_score b p == maxScore b)

/-- Basic constructor-enforced wellformedness of a game state (blokus.py
init raises on violations; the cursor starts at 1 and progress keeps it in
range). -/
def WFBounds (b : Blokus) : Prop :=
  1 ≤ b.num_players ∧ b.num_players ≤ 4 ∧ 5 ≤ b.size ∧
    1 ≤ b.curr_player ∧ b.curr_player ≤ b.num_players

/-- One engine call, for stating stability of grid cells across call
sequences.  A call that raises leaves the state unchanged (every raise in
maybe_place happens before any write). -/
inductive EngineOp where
  | place (piece : Piece)
  | retireOp
  | progress

def applyOp (b : Blokus) : EngineOp → Blokus
  | .place piece =>
    match maybe_place b piece with
    | .ok r => r.2
    | .error _ => b
  | .retireOp => retire b
  | .progress => progress_turn b

def applyOps (b : Blokus) : List EngineOp → Blokus
  | [] => b
  | op :: ops => applyOps (applyOp b op) ops

/-! Embedding of src/grid.py: the bordered text serialization of a grid
snapshot.  Strings are modelled as lists of characters; the Python builtins
the two functions use (str on an int, str.strip, str.split, str.join, int
on a digit character) are modelled explicitly below. -/

/-- A grid snapshot as grid.py consumes it: rows of cells. -/
abbrev GridRepr := List (List Cell)

/-- The whitespace characters Python str.strip removes. -/
def pyIsSpace (c : Char) : Bool :=
  c = ' ' ∨ c = '\t' ∨ c = '\n' ∨ c = '\r' ∨ c = '\x0b' ∨ c = '\x0c'

/-- Python str.strip: drop whitespace from both ends. -/
def pyStrip (s : List Char) : List Char :=
  ((s.dropWhile pyIsSpace).reverse.dropWhile pyIsSpace).reverse

/-- Python str(n) for a natural number: its decimal digits. -/
def pyNatStr (n : Nat) : List Char := Nat.toDigits 10 n

/-- Python str.join with the given separator string. -/
def pyJoin (sep : List Char) : List (List Char) → List Char
  | [] => []
  | [l] => l
  | l :: m :: ls => l ++ sep ++ pyJoin sep (m :: ls)

/-- Python str.split on a single separator character. -/
def pySplitOn (sep : Char) : List Char → List (List Char)
  | [] => [[]]
  | c :: rest =>
    if c = sep then [] :: pySplitOn sep rest
    else
      match pySplitOn sep rest with
      | [] => [[c]]
      | h :: t => (c :: h) :: t

/-- grid.py grid_to_string, per cell: two spaces when empty, else the
player id rendered by str followed by one space. -/
def cellChars : Cell → List Char
  | none => [' ', ' ']
  | some pk => pyNatStr pk.1 ++ [' ']

/-- grid.py grid_to_string, per row: the cells between two pipes. -/
def rowChars (row : List Cell) : List Char :=
  '|' :: (row.flatMap cellChars ++ ['|'])

/-- grid.py grid_to_string, border line: width*2 dashes between plusses. -/
def borderChars (width : Nat) : List Char :=
  '+' :: (List.replicate (width * 2) '-' ++ ['+'])

/-- grid.py grid_to_string. -/
def grid_to_string (grid : GridRepr) : List Char :=
  let width := (grid.headD []).length
  pyJoin ['\n'] ([borderChars width] ++ grid.map rowChars ++ [borderChars width])

/-- Python int(c) for a digit character.  grid.py only applies it to the
characters its own serializer wrote, which are decimal digits there. -/
def pyDigitVal (c : Char) : Nat := c.toNat - 48

/-- grid.py string_to_grid, per cell character: a space is an empty cell,
anything else parses as a player id with the fixed 1-square kind. -/
def parseCell (c : Char) : Cell :=
  if c = ' ' then none else some (pyDigitVal c, ShapeKind.ONE)

/-- grid.py string_to_grid, per line: the characters at indexes
1, 3, 5, ... up to len(line)-2, exactly the indexes Python
range(1, len(line)-1, 2) produces. -/
def parseLine (line : List Char) : List Cell :=
  (List.range' 1 ((line.length - 1) / 2) 2).map (fun i => parseCell (line.getD i ' '))

/-- grid.py string_to_grid: strip, split on newlines, drop the two border
lines, parse each remaining line. -/
def string_to_grid (s : List Char) : GridRepr :=
  let lines := pySplitOn '\n' (pyStrip s)
  ((lines.drop 1).dropLast).map parseLine

/-- The shape-kind-forgetting map the round trip realizes on one cell. -/
def stripKind (c : Cell) : Cell :=
  c.map (fun pk => (pk.1, ShapeKind.ONE))

/-- The occupant of the cell, when present, renders as a single character. -/
def cellDigitOK : Cell → Bool
  | none => true
  | some pk => pk.1 ≤ 9

/-! Concrete states and pieces used by the witness theorems. -/

/-- An empty two-player game of size 5 with the spec scenario start set. -/
def wbEmpty : Blokus :=
  { num_players := 2, size := 5, start_positions := [(0, 0), (4, 4)], curr_player := 1,
    shapes_played := fun _ => [], grid := fun _ _ => none, retired := [] }

/-- The 1-square piece anchored at the given point. -/
def wpOne (a : Point) : Piece := { kind := .ONE, anchor := some a, offsets := [(0, 0)] }

/-- A horizontal 2-square piece anchored at the given point. -/
def wpTwo (a : Point) : Piece := { kind := .TWO, anchor := some a, offsets := [(0, 0), (0, 1)] }

/-- The empty game after player 1 played the 1-square shape at (0,0). -/
def wbPlaced : Blokus :=
  { wbEmpty with
    grid := fun x y => if x = 0 ∧ y = 0 then some (1, ShapeKind.ONE) else none,
    shapes_played := fun p => if p = 1 then [ShapeKind.ONE] else [] }

/-- The empty game with both players retired and the cursor on player 1. -/
def wbAllRetired : Blokus := { wbEmpty with retired := [1, 2] }

/-- The empty game with player 1 retired and the cursor on player 1. -/
def wbOneRetired : Blokus := { wbEmpty with retired := [1] }

/-- A small snapshot for the serialization round trip. -/
def wGrid : GridRepr :=
  [[none, none, none, none, none],
   [none, some (1, .TWO), some (1, .TWO), none, none],
   [none, some (2, .X), none, none, none],
   [none, none, none, none, none],
   [none, none, none, none, none]]

/-! Helper lemmas: cursor updates touch no other field, and the legality
and scoring readers ignore the cursor position. -/

@[simp]
theorem setCurr_retired (b : Blokus) (x : Nat) :
    ({b with curr_player := x} : Blokus).retired = b.retired := rfl

@[simp]
theorem setCurr_shapes_played (b : Blokus) (x : Nat) :
    ({b with curr_player := x} : Blokus).shapes_played = b.shapes_played := rfl

@[simp]
theorem setCurr_grid (b : Blokus) (x : Nat) :
    ({b with curr_player := x} : Blokus).grid = b.grid := rfl

@[simp]
theorem setCurr_num_players (b : Blokus) (x : Nat) :
    ({b with curr_player := x} : Blokus).num_players = b.num_players := rfl

@[simp]
theorem setCurr_curr (b : Blokus) (x : Nat) :
    ({b with curr_player := x} : Blokus).curr_player = x := rfl

@[simp]
theorem setCurr_setCurr (b : Blokus) (x y : Nat) :
    ({({b with curr_player := x} : Blokus) with curr_player := y} : Blokus) =
      {b with curr_player := y} := rfl

@[simp]
theorem setCurr_self (b : Blokus) :
    ({b with curr_player := b.curr_player} : Blokus) = b := rfl

@[simp]
theorem remaining_shapes_setCurr (b : Blokus) (x p : Nat) :
    remaining_shapes {b with curr_player := x} p = remaining_shapes b p := rfl

@[simp]
theorem playableP_setCurr (b : Blokus) (x p : Nat) :
    playableP {b with curr_player := x} p ↔ playableP b p := Iff.rfl

@[simp]
theorem allDone_setCurr (b : Blokus) (x : Nat) :
    allDone {b with curr_player := x} ↔ allDone b := Iff.rfl

@[simp]
theorem get_score_setCurr (b : Blokus) (x p : Nat) :
    get_score {b with curr_player := x} p = get_score b p := rfl

/-- The playability test the scan and the loop perform, as a negation. -/
theorem not_playable_iff (b : Blokus) (p : Nat) :
    (p ∈ b.retired ∨ (remaining_shapes b p).length ≤ 0) ↔ ¬ playableP b p := by
  unfold playableP
  constructor
  · rintro (h | h) ⟨h1, h2⟩
    · exact h1 h
    · omega
  · intro h
    by_cases hr : p ∈ b.retired
    · exact Or.inl hr
    · right
      by_contra hlen
      exact h ⟨hr, by omega⟩

/-- The scan on an unplayable head just repoints the cursor and recurses. -/
theorem gameOverScan_cons_skip (saved p : Nat) (ps : List Nat) (b : Blokus)
    (h : ¬ playableP b p) :
    gameOverScan saved b (p :: ps) = gameOverScan saved {b with curr_player := p} ps := by
  have hcond := (not_playable_iff b p).mpr h
  simp only [gameOverScan]
  split
  · rfl
  · split
    · rfl
    · rename_i h1 h2
      simp only [setCurr_retired, remaining_shapes_setCurr] at h1 h2
      rcases hcond with hc | hc
      · exact absurd hc h1
      · exact absurd hc h2

/-- The scan on a playable head returns False with the saved cursor. -/
theorem gameOverScan_cons_found (saved p : Nat) (ps : List Nat) (b : Blokus)
    (h : playableP b p) :
    gameOverScan saved b (p :: ps) = (false, {b with curr_player := saved}) := by
  obtain ⟨hr, hl⟩ := h
  simp only [gameOverScan]
  split
  · rename_i h1
    exact absurd h1 hr
  · split
    · rename_i h2
      simp only [remaining_shapes_setCurr] at h2
      omega
    · simp

/-- The scan returns False, with the saved cursor restored, as soon as some
scanned player is playable. -/
theorem gameOverScan_found (saved : Nat) (ps : List Nat) :
    ∀ (b : Blokus), (∃ p ∈ ps, playableP b p) →
      gameOverScan saved b ps = (false, {b with curr_player := saved}) := by
  induction ps with
  | nil => intro b h; simp at h
  | cons p rest ih =>
    intro b h
    by_cases hp : playableP b p
    · exact gameOverScan_cons_found saved p rest b hp
    · rcases h with ⟨q, hq, hqp⟩
      have hqrest : q ∈ rest := by
        rcases List.mem_cons.mp hq with h1 | h1
        · exact absurd (h1 ▸ hqp) hp
        · exact h1
      rw [gameOverScan_cons_skip saved p rest b hp]
      have := ih {b with curr_player := p} ⟨q, hqrest, by simpa using hqp⟩
      simpa using this

/-- When every scanned player is unplayable, the scan returns True and
leaves the cursor on the last scanned player. -/
theorem gameOverScan_all (saved : Nat) (k : Nat) :
    ∀ (s : Nat) (b : Blokus), 1 ≤ k → (∀ p ∈ List.range' s k, ¬ playableP b p) →
      gameOverScan saved b (List.range' s k) = (true, {b with curr_player := s + k - 1}) := by
  induction k with
  | zero => omega
  | succ m ih =>
    intro s b _ hall
    have hs : ¬ playableP b s := hall s (by simp [List.mem_range'_1])
    have hcons : List.range' s (m + 1) = s :: List.range' (s + 1) m := List.range'_succ s m 1
    rw [hcons, gameOverScan_cons_skip saved s _ b hs]
    rcases Nat.eq_zero_or_pos m with hm | hm
    · subst hm
      simp only [List.range', gameOverScan]
      have : s + 1 - 1 = s := by omega
      rw [this]
    · have hall2 : ∀ p ∈ List.range' (s + 1) m, ¬ playableP {b with curr_player := s} p := by
        intro p hp
        simp only [playableP_setCurr]
        exact hall p (by rw [hcons]; exact List.mem_cons_of_mem _ hp)
      have := ih (s + 1) {b with curr_player := s} hm hall2
      rw [this]
      simp only [setCurr_setCurr]
      have : s + 1 + m - 1 = s + (m + 1) - 1 := by omega
      rw [this]

/-- When some player is playable, game_over returns False and the whole
state, cursor included, is exactly what it was. -/
theorem game_over_false (b : Blokus) (h : ¬ allDone b) : game_over b = (false, b) := by
  unfold allDone at h
  push_neg at h
  obtain ⟨p, hp, hpl⟩ := h
  unfold game_over
  rw [gameOverScan_found b.curr_player _ b ⟨p, hp, hpl⟩]

/-- When every player is retired or exhausted, game_over returns True and
leaves the cursor on the last player scanned, player num_players. -/
theorem game_over_true (b : Blokus) (h : allDone b) (hn : 1 ≤ b.num_players) :
    game_over b = (true, {b with curr_player := b.num_players}) := by
  unfold game_over
  rw [gameOverScan_all b.curr_player b.num_players 1 b hn h]
  have : 1 + b.num_players - 1 = b.num_players := by omega
  rw [this]

/-- The boolean game_over returns is the pure all-done test. -/
theorem game_over_fst (b : Blokus) : (game_over b).1 = true ↔ allDone b := by
  by_cases h : allDone b
  · constructor
    · intro _; exact h
    · intro _
      rcases Nat.eq_zero_or_pos b.num_players with hn | hn
      · unfold game_over
        rw [hn]
        rfl
      · rw [game_over_true b h hn]
  · rw [game_over_false b h]
    simp [h]

/-- Claim C3 (amended): evaluating game_over leaves the whole state
unchanged when it returns false; when it returns true, every field except
the cursor is unchanged and the cursor is left on player num_players (the
saved cursor is restored only on the early-return-false path). -/
theorem game_over_cursor_effect (b : Blokus) (hn : 1 ≤ b.num_players) :
    ((game_over b).1 = false → game_over b = (false, b)) ∧
    ((game_over b).1 = true → game_over b = (true, {b with curr_player := b.num_players})) := by
  by_cases h : allDone b
  · have ht := game_over_true b h hn
    refine ⟨fun hf => ?_, fun _ => ht⟩
    rw [ht] at hf
    simp at hf
  · have hf := game_over_false b h
    refine ⟨fun _ => hf, fun ht => ?_⟩
    rw [hf] at ht
    simp at ht

/-- Claim C3 counterexample: with both players of a 2-player game retired
and the cursor on player 1, game_over returns true and leaves the cursor on
player 2, so the state is not restored. -/
theorem game_over_not_restoring :
    (game_over wbAllRetired).1 = true ∧
      (game_over wbAllRetired).2.curr_player ≠ wbAllRetired.curr_player := by
  decide

/-- Claim C3 witness: the amended theorem applied to the two-player
all-retired state. -/
theorem game_over_cursor_effect_witness :
    1 ≤ wbAllRetired.num_players ∧
      (((game_over wbAllRetired).1 = false → game_over wbAllRetired = (false, wbAllRetired)) ∧
       ((game_over wbAllRetired).1 = true →
         game_over wbAllRetired =
           (true, {wbAllRetired with curr_player := wbAllRetired.num_players}))) :=
  ⟨by decide, game_over_cursor_effect wbAllRetired (by decide)⟩

@[simp]
theorem advState_eq (b : Blokus) :
    advState b = {b with curr_player := b.curr_player % b.num_players + 1} := rfl

/-- The scan only ever moves the cursor. -/
theorem gameOverScan_onlyCursor (saved : Nat) (ps : List Nat) :
    ∀ (b : Blokus),
      (gameOverScan saved b ps).2 =
        {b with curr_player := (gameOverScan saved b ps).2.curr_player} := by
  induction ps with
  | nil => intro b; exact (setCurr_self b).symm
  | cons p rest ih =>
    intro b
    simp only [gameOverScan]
    split
    · exact ih {b with curr_player := p}
    · split
      · exact ih {b with curr_player := p}
      · rfl

/-- game_over only ever moves the cursor. -/
theorem game_over_onlyCursor (b : Blokus) :
    (game_over b).2 = {b with curr_player := (game_over b).2.curr_player} :=
  gameOverScan_onlyCursor b.curr_player (List.range' 1 b.num_players) b

/-- A state differs from b at most in the cursor iff the six other fields
agree. -/
theorem onlyCursor_char (b b2 : Blokus) :
    b2 = {b with curr_player := b2.curr_player} ↔
      (b2.num_players = b.num_players ∧ b2.size = b.size ∧
       b2.start_positions = b.start_positions ∧ b2.shapes_played = b.shapes_played ∧
       b2.grid = b.grid ∧ b2.retired = b.retired) := by
  constructor
  · intro h
    rw [h]
    exact ⟨rfl, rfl, rfl, rfl, rfl, rfl⟩
  · rintro ⟨h1, h2, h3, h4, h5, h6⟩
    cases b
    cases b2
    simp only at h1 h2 h3 h4 h5 h6
    subst h1
    subst h2
    subst h3
    subst h4
    subst h5
    subst h6
    rfl

/-- Differing only in the cursor is transitive. -/
theorem onlyCursor_trans (b b2 b3 : Blokus)
    (h2 : b2 = {b with curr_player := b2.curr_player})
    (h3 : b3 = {b2 with curr_player := b3.curr_player}) :
    b3 = {b with curr_player := b3.curr_player} := by
  rw [onlyCursor_char] at h2 h3 ⊢
  exact ⟨h3.1.trans h2.1, h3.2.1.trans h2.2.1, h3.2.2.1.trans h2.2.2.1,
    h3.2.2.2.1.trans h2.2.2.2.1, h3.2.2.2.2.1.trans h2.2.2.2.2.1,
    h3.2.2.2.2.2.trans h2.2.2.2.2.2⟩

/-- The progress loop only ever moves the cursor. -/
theorem progressLoop_onlyCursor :
    ∀ (fuel : Nat) (b : Blokus),
      progressLoop fuel b = {b with curr_player := (progressLoop fuel b).curr_player} := by
  intro fuel
  induction fuel with
  | zero => intro b; exact (setCurr_self b).symm
  | succ m ih =>
    intro b
    simp only [progressLoop]
    split
    · rcases hgo : game_over b with ⟨gb, b2⟩
      have hb2 : b2 = {b with curr_player := b2.curr_player} := by
        have h := game_over_onlyCursor b
        rw [hgo] at h
        exact h
      cases gb with
      | true => exact hb2
      | false => exact onlyCursor_trans b b2 _ hb2 (ih (advState b2))
    · exact (setCurr_self b).symm

/-- progress_turn only ever moves the cursor. -/
theorem progress_turn_onlyCursor (b : Blokus) :
    progress_turn b = {b with curr_player := (progress_turn b).curr_player} :=
  progressLoop_onlyCursor b.num_players (advState b)

/-- With enough fuel, and some playable player k cyclic steps ahead with
none playable earlier, the loop stops exactly on that player. -/
theorem progressLoop_finds :
    ∀ (fuel : Nat) (b : Blokus) (k : Nat), k < fuel → ¬ allDone b →
      playableP b (iterNext b.num_players k b.curr_player) →
      (∀ j, j < k → ¬ playableP b (iterNext b.num_players j b.curr_player)) →
      progressLoop fuel b =
        {b with curr_player := iterNext b.num_players k b.curr_player} := by
  intro fuel
  induction fuel with
  | zero => intro b k hk; omega
  | succ m ih =>
    intro b k hk hnd hpl hmin
    cases k with
    | zero =>
      simp only [progressLoop]
      rw [if_neg]
      · exact (setCurr_self b).symm
      · intro hc
        exact (not_playable_iff b b.curr_player).mp hc hpl
    | succ j =>
      have h0 : ¬ playableP b b.curr_player := hmin 0 (by omega)
      simp only [progressLoop]
      rw [if_pos ((not_playable_iff b b.curr_player).mpr h0), game_over_false b hnd]
      show progressLoop m (advState b) = _
      have ih2 := ih (advState b) j (by omega)
        (by simpa using hnd)
        (by simpa using hpl)
        (by
          intro i hi
          have := hmin (i + 1) (by omega)
          simpa using this)
      simpa using ih2

/-- With every player unplayable, the loop exits through the game_over
check on its first iteration, leaving the cursor on player num_players. -/
theorem progressLoop_allDone (b : Blokus) (fuel : Nat) (hd : allDone b)
    (hn : 1 ≤ b.num_players) (hc1 : 1 ≤ b.curr_player) (hc2 : b.curr_player ≤ b.num_players) :
    progressLoop (fuel + 1) b = {b with curr_player := b.num_players} := by
  have hmem : b.curr_player ∈ List.range' 1 b.num_players := by
    rw [List.mem_range'_1]
    omega
  have hp : ¬ playableP b b.curr_player := hd _ hmem
  simp only [progressLoop]
  rw [if_pos ((not_playable_iff b b.curr_player).mpr hp), game_over_true b hd hn]

/-- Closed form of the iterated cyclic advancement, for a cursor already in
range. -/
theorem iterNext_closed (n : Nat) (hn : 1 ≤ n) :
    ∀ (k c : Nat), 1 ≤ c → c ≤ n → iterNext n k c = (c - 1 + k) % n + 1 := by
  intro k
  induction k with
  | zero =>
    intro c h1 h2
    have : (c - 1 + 0) % n = c - 1 := by
      rw [Nat.add_zero]
      exact Nat.mod_eq_of_lt (by omega)
    simp only [iterNext]
    rw [this]
    omega
  | succ m ih =>
    intro c h1 h2
    show iterNext n m (c % n + 1) = _
    have hlt : c % n < n := Nat.mod_lt _ (by omega)
    rw [ih (c % n + 1) (by omega) (by omega)]
    congr 1
    have h3 : c % n + 1 - 1 + m = c % n + m := by omega
    have h4 : c - 1 + (m + 1) = c + m := by omega
    rw [h3, h4, Nat.add_mod (c % n) m n, Nat.mod_mod_of_dvd c (dvd_refl n), ← Nat.add_mod]

/-- Any player in range is reached from any in-range cursor in fewer than n
cyclic steps. -/
theorem iterNext_covers (n c p : Nat) (hn : 1 ≤ n) (hc1 : 1 ≤ c) (hc2 : c ≤ n)
    (hp1 : 1 ≤ p) (hp2 : p ≤ n) :
    ∃ k, k < n ∧ iterNext n k c = p := by
  refine ⟨(p + n - c) % n, Nat.mod_lt _ (by omega), ?_⟩
  rw [iterNext_closed n hn _ c hc1 hc2]
  have h1 : (c - 1 + (p + n - c) % n) % n = (c - 1 + (p + n - c)) % n := by
    rw [Nat.add_mod (c - 1) ((p + n - c) % n) n, Nat.mod_mod_of_dvd _ (dvd_refl n),
      ← Nat.add_mod]
  rw [h1]
  have h2 : c - 1 + (p + n - c) = p - 1 + n := by omega
  rw [h2, Nat.add_mod_right, Nat.mod_eq_of_lt (by omega)]
  omega

/-- Claim C8: for a game with 1 to 4 players, progress_turn terminates (the
loop result is already fixed at fuel num_players), and when the game is not
over it stops on a playable player reached by cyclic 1-indexed advancement
from the previous cursor, skipping exactly the unplayable players. -/
theorem progress_turn_spec (b : Blokus) (h1 : 1 ≤ b.num_players) (h4 : b.num_players ≤ 4) :
    ProgressFuelIrrel b ∧ ((game_over b).1 = false → ProgressReaches b) := by
  have hmod : b.curr_player % b.num_players < b.num_players := Nat.mod_lt _ (by omega)
  by_cases hd : allDone b
  · obtain ⟨m, hm⟩ : ∃ m, b.num_players = m + 1 := ⟨b.num_players - 1, by omega⟩
    have hdB : allDone (advState b) := by simpa using hd
    have hnB : 1 ≤ (advState b).num_players := by simpa using h1
    have hc1 : 1 ≤ (advState b).curr_player := by simp
    have hc2 : (advState b).curr_player ≤ (advState b).num_players := by
      simp only [advState_eq, setCurr_curr, setCurr_num_players]
      omega
    have e1 := progressLoop_allDone (advState b) m hdB hnB hc1 hc2
    constructor
    · intro extra
      have e2 := progressLoop_allDone (advState b) (m + extra) hdB hnB hc1 hc2
      unfold progress_turn
      rw [show b.num_players + extra = m + extra + 1 from by omega, e2,
        show b.num_players = m + 1 from hm, e1]
    · intro hfalse
      rw [game_over_true b hd h1] at hfalse
      simp at hfalse
  · have hex : ∃ p ∈ List.range' 1 b.num_players, playableP b p := by
      unfold allDone at hd
      push_neg at hd
      exact hd
    obtain ⟨p, hpmem, hppl⟩ := hex
    have hpb := List.mem_range'_1.mp hpmem
    obtain ⟨k0, hk0n, hk0⟩ :=
      iterNext_covers b.num_players (b.curr_player % b.num_players + 1) p h1
        (by omega) (by omega) hpb.1 (by omega)
    have hexQ : ∃ k, playableP b (iterNext b.num_players k (b.curr_player % b.num_players + 1)) :=
      ⟨k0, by rw [hk0]; exact hppl⟩
    have hKle : Nat.find hexQ ≤ k0 := Nat.find_min' hexQ (by rw [hk0]; exact hppl)
    have hKn : Nat.find hexQ < b.num_players := lt_of_le_of_lt hKle hk0n
    have hKspec := Nat.find_spec hexQ
    have hdB : ¬ allDone (advState b) := by simpa using hd
    have hpl2 : playableP (advState b)
        (iterNext (advState b).num_players (Nat.find hexQ) (advState b).curr_player) := by
      simpa using hKspec
    have hmin2 : ∀ j, j < Nat.find hexQ →
        ¬ playableP (advState b) (iterNext (advState b).num_players j (advState b).curr_player) := by
      intro j hj
      have h := Nat.find_min hexQ hj
      simpa using h
    have hloop := progressLoop_finds b.num_players (advState b) (Nat.find hexQ)
      (by simpa using hKn) hdB hpl2 hmin2
    constructor
    · intro extra
      have hloop2 := progressLoop_finds (b.num_players + extra) (advState b) (Nat.find hexQ)
        (by omega) hdB hpl2 hmin2
      unfold progress_turn
      rw [hloop2, hloop]
    · intro _
      refine ⟨Nat.find hexQ, ?_, ?_, ?_⟩
      · show progress_turn b = _
        unfold progress_turn
        rw [hloop]
        rfl
      · exact hKspec
      · intro j hj1 hjK
        have h := Nat.find_min hexQ (show j - 1 < Nat.find hexQ from by omega)
        rw [show j = (j - 1) + 1 from by omega]
        exact h

/-- Claim C8 witness: the spec scenario, a 2-player game with player 1 just
retired and player 2 holding shapes; the cursor ends on player 2. -/
theorem progress_turn_spec_witness :
    (1 ≤ wbOneRetired.num_players ∧ wbOneRetired.num_players ≤ 4 ∧
      (progress_turn wbOneRetired).curr_player = 2) ∧
      (ProgressFuelIrrel wbOneRetired ∧
        ((game_over wbOneRetired).1 = false → ProgressReaches wbOneRetired)) :=
  ⟨⟨by decide, by decide, by decide⟩,
    progress_turn_spec wbOneRetired (by decide) (by decide)⟩

/-- Claim C10: when the current player is retired, maybe_place skips every
check and every write: it returns true for any piece at all, even an
unanchored or unheld one, and the state change is exactly the turn
advancement of progress_turn, which moves only the cursor. -/
theorem maybe_place_retired (b : Blokus) (piece : Piece)
    (h : b.curr_player ∈ b.retired) :
    maybe_place b piece = .ok (true, progress_turn b) ∧
      progress_turn b = {b with curr_player := (progress_turn b).curr_player} := by
  constructor
  · unfold maybe_place
    rw [if_pos h]
  · exact progress_turn_onlyCursor b

/-- Claim C10 witness: an unanchored piece played while the current player
of a 2-player game is retired. -/
theorem maybe_place_retired_witness :
    wbOneRetired.curr_player ∈ wbOneRetired.retired ∧
      (maybe_place wbOneRetired { kind := .ONE, anchor := none, offsets := [] } =
          .ok (true, progress_turn wbOneRetired) ∧
        progress_turn wbOneRetired =
          {wbOneRetired with curr_player := (progress_turn wbOneRetired).curr_player}) :=
  ⟨by decide, maybe_place_retired wbOneRetired _ (by decide)⟩

/-- Claim C4: for a non-retired current player and an anchored, held piece,
an illegal placement makes maybe_place return false with no error and with
the state exactly unchanged. -/
theorem maybe_place_illegal (b : Blokus) (piece : Piece) (a : Point)
    (hret : b.curr_player ∉ b.retired)
    (hanc : piece.anchor = some a)
    (hkind : piece.kind ∈ remaining_shapes b b.curr_player)
    (hleg : legal_to_place b piece = .ok false) :
    maybe_place b piece = .ok (false, b) := by
  simp only [maybe_place, hanc, hleg, if_neg hret, if_pos hkind]

/-- Claim C4 witness: a first-move 1-square piece at (2,2), touching no
start position, on the empty 2-player board. -/
theorem maybe_place_illegal_witness :
    (wbEmpty.curr_player ∉ wbEmpty.retired ∧
      (wpOne (2, 2)).anchor = some (2, 2) ∧
      (wpOne (2, 2)).kind ∈ remaining_shapes wbEmpty wbEmpty.curr_player ∧
      legal_to_place wbEmpty (wpOne (2, 2)) = .ok false) ∧
      maybe_place wbEmpty (wpOne (2, 2)) = .ok (false, wbEmpty) :=
  ⟨⟨by decide, rfl, by decide, rfl⟩,
    maybe_place_illegal wbEmpty (wpOne (2, 2)) (2, 2) (by decide) rfl (by decide) rfl⟩

/-- writeSquares never touches a coordinate outside the square list. -/
theorem writeSquares_not_mem (v : Nat × ShapeKind) :
    ∀ (sqs : List Point) (g : Int → Int → Cell) (x y : Int), (x, y) ∉ sqs →
      writeSquares v sqs g x y = g x y := by
  intro sqs
  induction sqs with
  | nil => intro g x y _; rfl
  | cons sq rest ih =>
    intro g x y h
    show writeSquares v rest _ x y = g x y
    rw [ih _ x y (fun hm => h (List.mem_cons_of_mem _ hm))]
    rw [if_neg]
    rintro ⟨h1, h2⟩
    apply h
    have : (x, y) = sq := by
      cases sq
      simp only at h1 h2
      rw [h1, h2]
    rw [this]
    exact List.mem_cons_self _ _

/-- The anchored-case unfolding of legal_to_place. -/
theorem legal_to_place_some (b : Blokus) (piece : Piece) (a : Point)
    (hanc : piece.anchor = some a) :
    legal_to_place b piece =
      (if piece.kind ∈ remaining_shapes b b.curr_player then
        match any_collisions b piece with
        | .error e => .error e
        | .ok true => .ok false
        | .ok false =>
          if (b.shapes_played b.curr_player).length ≤ 0 then
            .ok ((piece.squaresAt a).any (fun sq => sq ∈ b.start_positions))
          else
            if (piece.cardinalAt a).any (fun q => ownAt b q) then
              .ok false
            else
              .ok ((piece.intercardinalAt a).any (fun q => ownAt b q))
      else .error pieceMsg) := by
  unfold legal_to_place
  rw [hanc]

/-- The anchored-case unfolding of any_collisions. -/
theorem any_collisions_some (b : Blokus) (piece : Piece) (a : Point)
    (hanc : piece.anchor = some a) :
    any_collisions b piece =
      (if piece.kind ∈ remaining_shapes b b.curr_player then
        match any_wall_collisions b piece with
        | .error e => .error e
        | .ok true => .ok true
        | .ok false => .ok ((piece.squaresAt a).any (fun s => (b.grid s.1 s.2).isSome))
      else .error pieceMsg) := by
  unfold any_collisions
  rw [hanc]

/-- A legal placement passed the collision check. -/
theorem legal_true_nocol (b : Blokus) (piece : Piece)
    (hleg : legal_to_place b piece = .ok true) :
    any_collisions b piece = .ok false := by
  cases hanc : piece.anchor with
  | none =>
    unfold legal_to_place at hleg
    rw [hanc] at hleg
    simp at hleg
  | some a =>
    rw [legal_to_place_some b piece a hanc] at hleg
    by_cases hkind : piece.kind ∈ remaining_shapes b b.curr_player
    · rw [if_pos hkind] at hleg
      cases hcol : any_collisions b piece with
      | error e => rw [hcol] at hleg; simp at hleg
      | ok w =>
        cases w
        · rfl
        · rw [hcol] at hleg; simp at hleg
    · rw [if_neg hkind] at hleg; simp at hleg

/-- Passing the collision check means every square of the piece sits on an
empty grid cell. -/
theorem nocol_free (b : Blokus) (piece : Piece) (a : Point)
    (hanc : piece.anchor = some a)
    (hcol : any_collisions b piece = .ok false) :
    ∀ sq ∈ piece.squaresAt a, b.grid sq.1 sq.2 = none := by
  rw [any_collisions_some b piece a hanc] at hcol
  by_cases hkind : piece.kind ∈ remaining_shapes b b.curr_player
  · rw [if_pos hkind] at hcol
    cases hw : any_wall_collisions b piece with
    | error e => rw [hw] at hcol; simp at hcol
    | ok w =>
      rw [hw] at hcol
      cases w
      · simp only [Except.ok.injEq] at hcol
        intro sq hsq
        have h := List.any_eq_false.mp hcol sq hsq
        cases hg : b.grid sq.1 sq.2 with
        | none => rfl
        | some c => rw [hg] at h; simp at h
      · simp at hcol
  · rw [if_neg hkind] at hcol
    simp at hcol

/-- The non-retired anchored-case unfolding of maybe_place. -/
theorem maybe_place_some (b : Blokus) (piece : Piece) (a : Point)
    (hret : b.curr_player ∉ b.retired) (hanc : piece.anchor = some a) :
    maybe_place b piece =
      (if piece.kind ∈ remaining_shapes b b.curr_player then
        match legal_to_place b piece with
        | .error e => .error e
        | .ok false => .ok (false, b)
        | .ok true =>
          .ok (true, progress_turn
            {b with
              grid := writeSquares (b.curr_player, piece.kind) (piece.squaresAt a) b.grid,
              shapes_played := fun p =>
                if p = b.curr_player then b.shapes_played p ++ [piece.kind]
                else b.shapes_played p})
      else .error pieceMsg) := by
  unfold maybe_place
  rw [if_neg hret, hanc]

/-- What maybe_place can do to the grid: leave it alone, or write the
squares of a legally placed anchored piece. -/
theorem maybe_place_grid (b : Blokus) (piece : Piece) (r : Bool × Blokus)
    (h : maybe_place b piece = .ok r) :
    r.2.grid = b.grid ∨
      (∃ a, piece.anchor = some a ∧ legal_to_place b piece = .ok true ∧
        r.2.grid = writeSquares (b.curr_player, piece.kind) (piece.squaresAt a) b.grid) := by
  by_cases hret : b.curr_player ∈ b.retired
  · unfold maybe_place at h
    rw [if_pos hret] at h
    simp only [Except.ok.injEq] at h
    left
    rw [← h]
    show (progress_turn b).grid = b.grid
    rw [progress_turn_onlyCursor b]
  · cases hanc : piece.anchor with
    | none =>
      unfold maybe_place at h
      rw [if_neg hret, hanc] at h
      simp at h
    | some a =>
      rw [maybe_place_some b piece a hret hanc] at h
      by_cases hkind : piece.kind ∈ remaining_shapes b b.curr_player
      · rw [if_pos hkind] at h
        cases hleg : legal_to_place b piece with
        | error e => rw [hleg] at h; simp at h
        | ok w =>
          rw [hleg] at h
          cases w
          · simp only [Except.ok.injEq] at h
            left
            rw [← h]
          · simp only [Except.ok.injEq] at h
            right
            refine ⟨a, rfl, rfl, ?_⟩
            rw [← h]
            show (progress_turn _).grid = _
            rw [progress_turn_onlyCursor]
      · rw [if_neg hkind] at h
        simp at h

/-- One engine call never clears or changes an occupied grid cell. -/
theorem applyOp_grid_mono (b : Blokus) (op : EngineOp) (x y : Int) (v : Nat × ShapeKind)
    (h : b.grid x y = some v) : (applyOp b op).grid x y = some v := by
  cases op with
  | progress =>
    show (progress_turn b).grid x y = some v
    rw [progress_turn_onlyCursor b]
    exact h
  | retireOp =>
    show (progress_turn _).grid x y = some v
    rw [progress_turn_onlyCursor]
    exact h
  | place piece =>
    show (match maybe_place b piece with | .ok r => r.2 | .error _ => b).grid x y = some v
    cases hmp : maybe_place b piece with
    | error e => exact h
    | ok r =>
      rcases maybe_place_grid b piece r hmp with hg | ⟨a, hanc, hleg, hg⟩
      · show r.2.grid x y = some v
        rw [hg]
        exact h
      · show r.2.grid x y = some v
        rw [hg]
        have hfree := nocol_free b piece a hanc (legal_true_nocol b piece hleg)
        have hnm : (x, y) ∉ piece.squaresAt a := by
          intro hm
          have := hfree (x, y) hm
          simp only at this
          rw [h] at this
          exact Option.some_ne_none v this
        rw [writeSquares_not_mem _ _ _ x y hnm]
        exact h

/-- Claim C5: an occupied grid cell keeps its occupant across any sequence
of maybe_place, retire and progress_turn calls: writes happen only on legal
placements, and the collision check keeps legal placements off occupied
cells. -/
theorem grid_cell_stable (ops : List EngineOp) :
    ∀ (b : Blokus) (x y : Int) (v : Nat × ShapeKind),
      b.grid x y = some v → (applyOps b ops).grid x y = some v := by
  induction ops with
  | nil => intro b x y v h; exact h
  | cons op rest ih =>
    intro b x y v h
    exact ih (applyOp b op) x y v (applyOp_grid_mono b op x y v h)

/-- Claim C5 witness: the cell (0,0) written by player 1 survives a further
placement, a retirement and a turn advancement. -/
theorem grid_cell_stable_witness :
    wbPlaced.grid 0 0 = some (1, ShapeKind.ONE) ∧
      (applyOps wbPlaced
          [EngineOp.place (wpTwo (1, 1)), EngineOp.retireOp, EngineOp.progress]).grid 0 0 =
        some (1, ShapeKind.ONE) :=
  ⟨rfl, grid_cell_stable _ wbPlaced 0 0 _ rfl⟩

/-- The boolean occupancy test equals the clamped own-cell predicate. -/
theorem ownAt_iff (b : Blokus) (q : Point) : ownAt b q = true ↔ OwnOcc b q := by
  simp only [ownAt, OwnOcc, clampP]
  cases hg : b.grid (clampCoord b.size q.1) (clampCoord b.size q.2) with
  | none => simp
  | some pk =>
    cases pk with
    | mk pl k1 => simp [beq_iff_eq]

/-- Claim C1: with the current player already on the board, an anchored
held piece that passes the collision check is legal exactly when no clamped
cardinal neighbor is own-occupied and some clamped intercardinal neighbor
is own-occupied. -/
theorem legal_to_place_adjacency (b : Blokus) (piece : Piece) (a : Point)
    (hanc : piece.anchor = some a)
    (hkind : piece.kind ∈ remaining_shapes b b.curr_player)
    (hplayed : b.shapes_played b.curr_player ≠ [])
    (hcol : any_collisions b piece = .ok false) :
    legal_to_place b piece = .ok true ↔
      (EdgeFreeAt b piece a ∧ CornerTouchAt b piece a) := by
  rw [legal_to_place_some b piece a hanc, if_pos hkind]
  simp only [hcol]
  rw [if_neg (by simp only [Nat.le_zero, List.length_eq_zero]; exact hplayed)]
  by_cases hedge : (piece.cardinalAt a).any (fun q => ownAt b q) = true
  · rw [if_pos hedge]
    constructor
    · intro hh
      simp at hh
    · rintro ⟨hEF, _⟩
      obtain ⟨q, hq, hqown⟩ := List.any_eq_true.mp hedge
      exact absurd ((ownAt_iff b q).mp hqown) (hEF q hq)
  · rw [if_neg hedge]
    have hEF : EdgeFreeAt b piece a := by
      intro q hq hocc
      exact hedge (List.any_eq_true.mpr ⟨q, hq, (ownAt_iff b q).mpr hocc⟩)
    constructor
    · intro hh
      simp only [Except.ok.injEq] at hh
      obtain ⟨q, hq, hqown⟩ := List.any_eq_true.mp hh
      exact ⟨hEF, ⟨q, hq, (ownAt_iff b q).mp hqown⟩⟩
    · rintro ⟨_, q, hq, hocc⟩
      have hany : (piece.intercardinalAt a).any (fun q => ownAt b q) = true :=
        List.any_eq_true.mpr ⟨q, hq, (ownAt_iff b q).mpr hocc⟩
      rw [hany]

/-- Claim C1 witness: player 1 has played the 1-square at (0,0); the
2-square piece anchored at (1,1) is corner-adjacent and edge-free, so the
equivalence holds there with both sides true. -/
theorem legal_to_place_adjacency_witness :
    ((wpTwo (1, 1)).anchor = some (1, 1) ∧
      (wpTwo (1, 1)).kind ∈ remaining_shapes wbPlaced wbPlaced.curr_player ∧
      wbPlaced.shapes_played wbPlaced.curr_player ≠ [] ∧
      any_collisions wbPlaced (wpTwo (1, 1)) = .ok false) ∧
      (legal_to_place wbPlaced (wpTwo (1, 1)) = .ok true ↔
        (EdgeFreeAt wbPlaced (wpTwo (1, 1)) (1, 1) ∧
          CornerTouchAt wbPlaced (wpTwo (1, 1)) (1, 1))) :=
  ⟨⟨rfl, by decide, by decide, rfl⟩,
    legal_to_place_adjacency wbPlaced (wpTwo (1, 1)) (1, 1) rfl (by decide) (by decide) rfl⟩

/-- Claim C2: with an empty played-list, an anchored held piece that passes
the collision check is legal exactly when one of its squares is one of the
start positions of the game. -/
theorem legal_to_place_first (b : Blokus) (piece : Piece) (a : Point)
    (hanc : piece.anchor = some a)
    (hkind : piece.kind ∈ remaining_shapes b b.curr_player)
    (hplayed : b.shapes_played b.curr_player = [])
    (hcol : any_collisions b piece = .ok false) :
    legal_to_place b piece = .ok true ↔ TouchesStart b piece a := by
  rw [legal_to_place_some b piece a hanc, if_pos hkind]
  simp only [hcol]
  rw [if_pos (by simp [hplayed])]
  simp [TouchesStart, List.any_eq_true]

/-- Claim C2 witness: the first 1-square piece at the start cell (0,0) on
the empty board; both sides of the equivalence hold. -/
theorem legal_to_place_first_witness :
    ((wpOne (0, 0)).anchor = some (0, 0) ∧
      (wpOne (0, 0)).kind ∈ remaining_shapes wbEmpty wbEmpty.curr_player ∧
      wbEmpty.shapes_played wbEmpty.curr_player = [] ∧
      any_collisions wbEmpty (wpOne (0, 0)) = .ok false) ∧
      (legal_to_place wbEmpty (wpOne (0, 0)) = .ok true ↔
        TouchesStart wbEmpty (wpOne (0, 0)) (0, 0)) :=
  ⟨⟨rfl, by decide, rfl, rfl⟩,
    legal_to_place_first wbEmpty (wpOne (0, 0)) (0, 0) rfl (by decide) rfl rfl⟩

/-- The running subtraction get_score performs equals the negated sum. -/
theorem foldl_sub_eq (l : List ShapeKind) :
    ∀ (acc : Int),
      l.foldl (fun score s => score - (squareCount s : Int)) acc =
        acc - (l.map (fun s => (squareCount s : Int))).sum := by
  induction l with
  | nil => intro acc; simp
  | cons c t ih =>
    intro acc
    show t.foldl _ (acc - (squareCount c : Int)) = _
    rw [ih (acc - (squareCount c : Int))]
    simp only [List.map_cons, List.sum_cons]
    ring

/-- Every catalog shape has at least one square. -/
theorem squareCount_pos (k : ShapeKind) : 1 ≤ squareCount k := by
  cases k <;> decide

/-- The 1-square kind is the only kind with exactly one square. -/
theorem squareCount_eq_one_iff (k : ShapeKind) : squareCount k = 1 ↔ k = .ONE := by
  cases k <;> decide

/-- A player with no remaining shapes has played at least one shape. -/
theorem remaining_empty_played_nonempty (b : Blokus) (p : Nat)
    (h : remaining_shapes b p = []) : b.shapes_played p ≠ [] := by
  intro hpl
  have hmem : ShapeKind.ONE ∈ remaining_shapes b p := by
    unfold remaining_shapes
    apply List.mem_filter.mpr
    refine ⟨by decide, ?_⟩
    simp [hpl]
  rw [h] at hmem
  exact List.not_mem_nil _ hmem

/-- Claim C6: with shapes remaining the score is the negated sum of the
remaining square counts, hence strictly negative; with none remaining it is
20 when the last played kind is the 1-square shape and 15 otherwise. -/
theorem get_score_spec (b : Blokus) (player : Nat) :
    (remaining_shapes b player ≠ [] →
      get_score b player =
        -(((remaining_shapes b player).map (fun s => (squareCount s : Int))).sum) ∧
      get_score b player < 0) ∧
    (remaining_shapes b player = [] →
      (((b.shapes_played player).getLastD .ONE = .ONE → get_score b player = 20) ∧
       ((b.shapes_played player).getLastD .ONE ≠ .ONE → get_score b player = 15))) := by
  constructor
  · intro hne
    have hlen : 0 < (remaining_shapes b player).length := List.length_pos.mpr hne
    have hsum : 0 < ((remaining_shapes b player).map (fun s => (squareCount s : Int))).sum := by
      apply List.sum_pos
      · intro x hx
        obtain ⟨s, _, hs⟩ := List.mem_map.mp hx
        have := squareCount_pos s
        omega
      · simp only [ne_eq, List.map_eq_nil_iff]
        exact hne
    unfold get_score
    rw [if_pos hlen, foldl_sub_eq]
    omega
  · intro he
    have hplayed := remaining_empty_played_nonempty b player he
    unfold get_score
    rw [if_neg (by rw [he]; simp)]
    constructor
    · intro hone
      rw [if_pos (by rw [hone]; rfl)]
    · intro hno
      rw [if_neg (fun hc => hno ((squareCount_eq_one_iff _).mp hc))]

/-- Claim C6 witness: on the fresh board player 1 scores -89 (all 21 shapes
remaining, 89 squares in total), and the negated-sum equation holds. -/
theorem get_score_spec_witness :
    remaining_shapes wbEmpty 1 ≠ [] ∧
      get_score wbEmpty 1 =
        -(((remaining_shapes wbEmpty 1).map (fun s => (squareCount s : Int))).sum) ∧
      get_score wbEmpty 1 < 0 ∧ get_score wbEmpty 1 = -89 :=
  ⟨by decide, ((get_score_spec wbEmpty 1).1 (by decide)).1,
    ((get_score_spec wbEmpty 1).1 (by decide)).2, by decide⟩

/-- A left fold of max is the seed or a list element. -/
theorem foldl_max_mem (l : List Int) :
    ∀ (s : Int), l.foldl max s = s ∨ l.foldl max s ∈ l := by
  induction l with
  | nil => intro s; left; rfl
  | cons c t ih =>
    intro s
    rcases ih (max s c) with h | h
    · rcases max_choice s c with hm | hm
      · left; rw [List.foldl_cons, h, hm]
      · right; rw [List.foldl_cons, h, hm]; exact List.mem_cons_self _ _
    · right; exact List.mem_cons_of_mem _ h

/-- Python max of a non-empty list is attained. -/
theorem pyMax_mem (l : List Int) (h : l ≠ []) : pyMax l ∈ l := by
  cases l with
  | nil => exact absurd rfl h
  | cons s t =>
    show t.foldl max s ∈ s :: t
    rcases foldl_max_mem t s with h1 | h1
    · rw [h1]; exact List.mem_cons_self _ _
    · exact List.mem_cons_of_mem _ h1

/-- The enumerate-filter-collect in winners equals a filter over the player
ids themselves. -/
theorem enumFrom_filter_map (f : Nat → Int) (m : Int) :
    ∀ (k s : Nat),
      ((((List.range' (s + 1) k).map f).enumFrom s).filter (fun ps => ps.2 == m)).map
          (fun ps => ps.1 + 1) =
        (List.range' (s + 1) k).filter (fun p => f p == m) := by
  intro k
  induction k with
  | zero => intro s; rfl
  | succ n ih =>
    intro s
    rw [List.range'_succ]
    simp only [List.map_cons, List.enumFrom_cons, List.filter_cons]
    by_cases hm : (f (s + 1) == m) = true
    · rw [if_pos hm, if_pos hm, List.map_cons, ih (s + 1)]
    · rw [if_neg hm, if_neg hm, ih (s + 1)]

/-- Claim C7: winners is none exactly when game_over is false; when the
game is over it is exactly the (non-empty, id-ordered) list of players
attaining the maximum score. -/
theorem winners_spec (b : Blokus) (h1 : 1 ≤ b.num_players) :
    ((winners b).1 = none ↔ (game_over b).1 = false) ∧
    ((game_over b).1 = true → (winners b).1 = some (winList b) ∧ winList b ≠ []) := by
  by_cases hd : allDone b
  · have hgo := game_over_true b hd h1
    have hfst : (game_over b).1 = true := by rw [hgo]
    have hval : (winners b).1 = some (winList b) := by
      unfold winners
      rw [hgo]
      exact congrArg some (enumFrom_filter_map (fun p => get_score b p) (maxScore b)
        b.num_players 0)
    have hps : playerScores b ≠ [] := by
      unfold playerScores
      simp only [ne_eq, List.map_eq_nil_iff]
      intro hr
      rw [List.range'_eq_nil] at hr
      omega
    have hnonempty : winList b ≠ [] := by
      obtain ⟨p, hp, hfp⟩ := List.mem_map.mp (pyMax_mem (playerScores b) hps)
      intro hnil
      have hmem : p ∈ winList b := by
        apply List.mem_filter.mpr
        refine ⟨hp, ?_⟩
        simp only [maxScore, hfp, beq_self_eq_true]
      rw [hnil] at hmem
      exact List.not_mem_nil _ hmem
    refine ⟨⟨fun hn => ?_, fun hf => ?_⟩, fun _ => ⟨hval, hnonempty⟩⟩
    · rw [hval] at hn
      simp at hn
    · rw [hfst] at hf
      simp at hf
  · have hgo := game_over_false b hd
    have hval : (winners b).1 = none := by
      unfold winners
      rw [hgo]
    have hfst : (game_over b).1 = false := by rw [hgo]
    refine ⟨⟨fun _ => hfst, fun _ => hval⟩, fun ht => ?_⟩
    rw [hfst] at ht
    simp at ht

/-- Claim C7 witness: the all-retired 2-player game is over, both players
score -89, and both are winners. -/
theorem winners_spec_witness :
    (1 ≤ wbAllRetired.num_players ∧ winList wbAllRetired = [1, 2]) ∧
      (((winners wbAllRetired).1 = none ↔ (game_over wbAllRetired).1 = false) ∧
        ((game_over wbAllRetired).1 = true →
          (winners wbAllRetired).1 = some (winList wbAllRetired) ∧
            winList wbAllRetired ≠ [])) :=
  ⟨⟨by decide, by decide⟩, winners_spec wbAllRetired (by decide)⟩

/-- A single-digit number renders as its one digit character. -/
theorem pyNatStr_digit (p : Nat) (hp : p ≤ 9) : pyNatStr p = [Nat.digitChar p] := by
  interval_cases p <;> rfl

/-- The first character a cell renders to. -/
def cellFirst : Cell → Char
  | none => ' '
  | some pk => Nat.digitChar pk.1

/-- Under the single-character hypothesis every cell renders to exactly two
characters, its first character then a space. -/
theorem cellChars_eq (c : Cell) (h : cellDigitOK c = true) :
    cellChars c = [cellFirst c, ' '] := by
  cases c with
  | none => rfl
  | some pk =>
    have hp : pk.1 ≤ 9 := by simpa [cellDigitOK] using h
    show pyNatStr pk.1 ++ [' '] = [Nat.digitChar pk.1, ' ']
    rw [pyNatStr_digit pk.1 hp]
    rfl

/-- Parsing the first character of a rendered cell recovers the cell up to
the forgotten shape kind. -/
theorem parse_cellFirst (c : Cell) (hc : cellDigitOK c = true) :
    parseCell (cellFirst c) = stripKind c := by
  cases c with
  | none => rfl
  | some pk =>
    cases pk with
    | mk p k =>
      have hp : p ≤ 9 := by simpa [cellDigitOK] using hc
      show parseCell (Nat.digitChar p) = some (p, ShapeKind.ONE)
      interval_cases p <;> rfl

/-- The rendered cells of a row occupy two characters per cell. -/
theorem flatMap_cells_length :
    ∀ (row : List Cell), (∀ c ∈ row, cellDigitOK c = true) →
      (row.flatMap cellChars).length = 2 * row.length := by
  intro row
  induction row with
  | nil => intro _; rfl
  | cons c rest ih =>
    intro hok
    rw [List.flatMap_cons, List.length_append,
      cellChars_eq c (hok c (List.mem_cons_self _ _)),
      ih (fun x hx => hok x (List.mem_cons_of_mem _ hx))]
    simp only [List.length_cons, List.length_nil, List.length_cons]
    omega

/-- Character 2j of the rendered cells (with anything appended) is the
first character of cell j. -/
theorem flatMap_cells_getD (d : Char) :
    ∀ (row : List Cell) (tail : List Char) (j : Nat),
      (∀ c ∈ row, cellDigitOK c = true) → (hj : j < row.length) →
      (row.flatMap cellChars ++ tail).getD (2 * j) d = cellFirst (row[j]) := by
  intro row
  induction row with
  | nil => intro tail j _ hj; simp at hj
  | cons c rest ih =>
    intro tail j hok hj
    rw [List.flatMap_cons, cellChars_eq c (hok c (List.mem_cons_self _ _))]
    cases j with
    | zero => rfl
    | succ m =>
      have hm : m < rest.length := by simpa using hj
      have hidx : 2 * (m + 1) = 2 * m + 1 + 1 := by omega
      rw [hidx]
      show (rest.flatMap cellChars ++ tail).getD (2 * m) d = cellFirst rest[m]
      exact ih tail m (fun x hx => hok x (List.mem_cons_of_mem _ hx)) hm

/-- range' with step two enumerates the odd-offset indexes. -/
theorem range'_step_map :
    ∀ (n s : Nat), List.range' s n 2 = (List.range n).map (fun j => s + 2 * j) := by
  intro n
  induction n with
  | zero => intro s; rfl
  | succ m ih =>
    intro s
    rw [List.range'_succ, List.range_succ_eq_map, List.map_cons, List.map_map, ih (s + 2)]
    apply List.cons_eq_cons.mpr
    constructor
    · show s = s + 2 * 0
      omega
    · apply List.map_congr_left
      intro j _
      show s + 2 + 2 * j = s + 2 * (j + 1)
      omega

/-- Parsing a rendered row recovers the row, with every occupied cell
carrying the 1-square kind. -/
theorem parseLine_rowChars (row : List Cell) (hok : ∀ c ∈ row, cellDigitOK c = true) :
    parseLine (rowChars row) = row.map stripKind := by
  unfold parseLine
  have hlen : (rowChars row).length = 2 * row.length + 2 := by
    show ('|' :: (row.flatMap cellChars ++ ['|'])).length = _
    rw [List.length_cons, List.length_append, flatMap_cells_length row hok]
    simp
  rw [hlen]
  have hcount : (2 * row.length + 2 - 1) / 2 = row.length := by omega
  rw [hcount, range'_step_map row.length 1, List.map_map]
  apply List.ext_getElem
  · simp
  · intro i h1 h2
    simp only [List.getElem_map, List.getElem_range, Function.comp_apply]
    have hi : i < row.length := by simpa using h2
    have hidx : 1 + 2 * i = 2 * i + 1 := by omega
    rw [hidx]
    show parseCell ((row.flatMap cellChars ++ ['|']).getD (2 * i) ' ') = stripKind row[i]
    rw [flatMap_cells_getD ' ' row ['|'] i hok hi]
    exact parse_cellFirst row[i] (hok row[i] (List.getElem_mem hi))

/-- Splitting a separator-free string yields that one piece. -/
theorem pySplitOn_no_sep (sep : Char) :
    ∀ (l : List Char), sep ∉ l → pySplitOn sep l = [l] := by
  intro l
  induction l with
  | nil => intro _; rfl
  | cons c rest ih =>
    intro h
    have hc : ¬ c = sep := fun he => h (he ▸ List.mem_cons_self _ _)
    show pySplitOn sep (c :: rest) = [c :: rest]
    simp only [pySplitOn]
    rw [if_neg hc, ih (fun hm => h (List.mem_cons_of_mem _ hm))]

/-- Splitting past a separator-free prefix peels it off. -/
theorem pySplitOn_append (sep : Char) :
    ∀ (u s : List Char), sep ∉ u →
      pySplitOn sep (u ++ sep :: s) = u :: pySplitOn sep s := by
  intro u
  induction u with
  | nil =>
    intro s _
    show pySplitOn sep (sep :: s) = [] :: pySplitOn sep s
    simp [pySplitOn]
  | cons c r ih =>
    intro s h
    have hc : ¬ c = sep := fun he => h (he ▸ List.mem_cons_self _ _)
    show pySplitOn sep (c :: (r ++ sep :: s)) = (c :: r) :: pySplitOn sep s
    simp only [pySplitOn]
    rw [if_neg hc, ih s (fun hm => h (List.mem_cons_of_mem _ hm))]

/-- Splitting a join on the separator recovers the lines, provided no line
contains the separator. -/
theorem pySplitOn_join (sep : Char) :
    ∀ (lines : List (List Char)), lines ≠ [] → (∀ l ∈ lines, sep ∉ l) →
      pySplitOn sep (pyJoin [sep] lines) = lines := by
  intro lines
  induction lines with
  | nil => intro h; exact absurd rfl h
  | cons x rest ih =>
    intro _ hns
    cases rest with
    | nil =>
      show pySplitOn sep x = [x]
      exact pySplitOn_no_sep sep x (hns x (List.mem_cons_self _ _))
    | cons y t =>
      show pySplitOn sep (x ++ [sep] ++ pyJoin [sep] (y :: t)) = x :: y :: t
      rw [List.append_assoc, List.singleton_append,
        pySplitOn_append sep x _ (hns x (List.mem_cons_self _ _)),
        ih (List.cons_ne_nil y t) (fun l hl => hns l (List.mem_cons_of_mem _ hl))]

/-- A join starting from a first line is that line followed by a rest. -/
theorem pyJoin_head (c : Char) (x : List Char) (ls : List (List Char)) :
    ∃ z, pyJoin [c] (x :: ls) = x ++ z := by
  cases ls with
  | nil => exact ⟨[], (List.append_nil x).symm⟩
  | cons y t =>
    refine ⟨[c] ++ pyJoin [c] (y :: t), ?_⟩
    show x ++ [c] ++ pyJoin [c] (y :: t) = _
    rw [List.append_assoc]

/-- A join ending in a last line is a prefix followed by that line. -/
theorem pyJoin_last (c : Char) :
    ∀ (ls : List (List Char)) (x : List Char),
      ∃ pre, pyJoin [c] (ls ++ [x]) = pre ++ x := by
  intro ls
  induction ls with
  | nil => intro x; exact ⟨[], rfl⟩
  | cons l rest ih =>
    intro x
    obtain ⟨pre, hpre⟩ := ih x
    cases rest with
    | nil =>
      refine ⟨l ++ [c], ?_⟩
      show l ++ [c] ++ pyJoin [c] [x] = l ++ [c] ++ x
      rfl
    | cons m t =>
      refine ⟨l ++ ([c] ++ pre), ?_⟩
      show l ++ [c] ++ pyJoin [c] ((m :: t) ++ [x]) = _
      rw [hpre]
      simp [List.append_assoc]

/-- Stripping is the identity on a string with non-space first and last
characters, given here by explicit decompositions. -/
theorem pyStrip_eq_self (s : List Char) (t u : List Char) (c1 c2 : Char)
    (h1 : s = c1 :: t) (hc1 : pyIsSpace c1 = false)
    (h2 : s = u ++ [c2]) (hc2 : pyIsSpace c2 = false) :
    pyStrip s = s := by
  unfold pyStrip
  have hd : s.dropWhile pyIsSpace = s := by
    rw [h1, List.dropWhile_cons, hc1]
    simp
  rw [hd]
  have hsrev : s.reverse = c2 :: u.reverse := by
    rw [h2]
    simp
  have hr : s.reverse.dropWhile pyIsSpace = s.reverse := by
    rw [hsrev, List.dropWhile_cons, hc2]
    simp
  rw [hr, List.reverse_reverse]

/-- The newline never occurs in a border line. -/
theorem newline_not_mem_border (w : Nat) : '\n' ∉ borderChars w := by
  intro h
  unfold borderChars at h
  rcases List.mem_cons.mp h with h1 | h1
  · exact absurd h1 (by decide)
  · rcases List.mem_append.mp h1 with h2 | h2
    · have := (List.mem_replicate.mp h2).2
      exact absurd this (by decide)
    · rcases List.mem_cons.mp h2 with h3 | h3
      · exact absurd h3 (by decide)
      · exact List.not_mem_nil _ h3

/-- Single-digit characters are never the newline. -/
theorem digitChar_ne_newline (p : Nat) (hp : p ≤ 9) : Nat.digitChar p ≠ '\n' := by
  interval_cases p <;> decide

/-- The newline never occurs in a rendered row. -/
theorem newline_not_mem_row (row : List Cell)
    (hok : ∀ c ∈ row, cellDigitOK c = true) : '\n' ∉ rowChars row := by
  intro h
  unfold rowChars at h
  rcases List.mem_cons.mp h with h1 | h1
  · exact absurd h1 (by decide)
  · rcases List.mem_append.mp h1 with h2 | h2
    · obtain ⟨c, hcr, hcc⟩ := List.mem_flatMap.mp h2
      rw [cellChars_eq c (hok c hcr)] at hcc
      rcases List.mem_cons.mp hcc with h3 | h3
      · cases c with
        | none => exact absurd h3 (by decide)
        | some pk =>
          have hp : pk.1 ≤ 9 := by simpa [cellDigitOK] using hok _ hcr
          exact digitChar_ne_newline pk.1 hp h3.symm
      · rcases List.mem_cons.mp h3 with h4 | h4
        · exact absurd h4 (by decide)
        · exact List.not_mem_nil _ h4
    · rcases List.mem_cons.mp h2 with h3 | h3
      · exact absurd h3 (by decide)
      · exact List.not_mem_nil _ h3

/-- Strip then split on the serialized output: the original lines With
borders come back whole. -/
theorem split_join_strip (B : List Char) (rows : List (List Char))
    (tB uB : List Char)
    (htB : B = '+' :: tB) (huB : B = uB ++ ['+'])
    (hBn : '\n' ∉ B) (hrows : ∀ r ∈ rows, '\n' ∉ r) :
    pySplitOn '\n' (pyStrip (pyJoin ['\n'] ([B] ++ rows ++ [B]))) =
      [B] ++ rows ++ [B] := by
  obtain ⟨z, hz⟩ := pyJoin_head '\n' B (rows ++ [B])
  obtain ⟨pre, hpre⟩ := pyJoin_last '\n' ([B] ++ rows) B
  have hL2 : ([B] ++ rows ++ [B] : List (List Char)) = ([B] ++ rows) ++ [B] := by
    simp
  have hz2 : pyJoin ['\n'] ([B] ++ rows ++ [B]) = B ++ z := hz
  have hpre2 : pyJoin ['\n'] ([B] ++ rows ++ [B]) = pre ++ B := by
    rw [hL2]
    exact hpre
  have hstrip : pyStrip (pyJoin ['\n'] ([B] ++ rows ++ [B])) =
      pyJoin ['\n'] ([B] ++ rows ++ [B]) := by
    apply pyStrip_eq_self _ (tB ++ z) (pre ++ uB) '+' '+'
    · rw [hz2, htB]
      rfl
    · decide
    · rw [hpre2, huB]
      simp [List.append_assoc]
    · decide
  rw [hstrip]
  apply pySplitOn_join
  · simp
  · intro l hl
    rcases List.mem_append.mp hl with h1 | h1
    · rcases List.mem_append.mp h1 with h2 | h2
      · rcases List.mem_cons.mp h2 with h3 | h3
        · rw [h3]; exact hBn
        · exact absurd h3 (List.not_mem_nil _)
      · exact hrows l h2
    · rcases List.mem_cons.mp h1 with h3 | h3
      · rw [h3]; exact hBn
      · exact absurd h3 (List.not_mem_nil _)

/-- Claim C9: for a rectangular grid whose occupants render as a single
character, the serialization round trip preserves dimensions, occupancy and
player ids, and replaces every shape kind by the fixed 1-square kind. -/
theorem string_to_grid_roundtrip (g : GridRepr) (w : Nat)
    (_hrect : ∀ r ∈ g, r.length = w)
    (hok : ∀ r ∈ g, ∀ c ∈ r, cellDigitOK c = true) :
    string_to_grid (grid_to_string g) = g.map (fun r => r.map stripKind) := by
  unfold grid_to_string string_to_grid
  have hsplit := split_join_strip (borderChars (g.headD []).length) (g.map rowChars)
    (List.replicate ((g.headD []).length * 2) '-' ++ ['+'])
    ('+' :: List.replicate ((g.headD []).length * 2) '-')
    rfl rfl (newline_not_mem_border _)
    (by
      intro r hr
      obtain ⟨r0, hr0, hrow⟩ := List.mem_map.mp hr
      rw [← hrow]
      exact newline_not_mem_row r0 (hok r0 hr0))
  show ((((pySplitOn '\n' (pyStrip (pyJoin ['\n']
      ([borderChars (g.headD []).length] ++ g.map rowChars ++
        [borderChars (g.headD []).length])))).drop 1).dropLast).map parseLine) = _
  rw [hsplit]
  show (((g.map rowChars ++ [borderChars (g.headD []).length]).dropLast).map parseLine) = _
  rw [List.dropLast_concat, List.map_map]
  apply List.map_congr_left
  intro r hr
  exact parseLine_rowChars r (hok r hr)

/-- Claim C9 witness: a concrete 5 by 5 snapshot with two players round
trips to itself with every occupied cell carrying the 1-square kind. -/
theorem string_to_grid_roundtrip_witness :
    ((∀ r ∈ wGrid, r.length = 5) ∧ (∀ r ∈ wGrid, ∀ c ∈ r, cellDigitOK c = true)) ∧
      string_to_grid (grid_to_string wGrid) = wGrid.map (fun r => r.map stripKind) :=
  ⟨⟨by decide, by decide⟩, string_to_grid_roundtrip wGrid 5 (by decide) (by decide)⟩
